import Mathlib

/-!
Verification development for a minimal retrieval-augmented chat assistant
(Streamlit UI `app.py`, ingestion batch `ingest.py`, smoke test `test_api.py`).

The repository's own code is UI wiring around library calls.  We embed:
* the per-turn message-history mutation performed by `app.py` (the block under
  `if prompt := st.chat_input(...)`), as a pure transition `runTurn` on the
  session message list, parameterised by the outcome of `chain.invoke`;
* the startup key check of `app.py` (`st.secrets` / `.env` lookup, `st.stop()`),
  as `startApp`;
* the smoke test `test_api.py` (try/except around one chat-completion call), as
  `runSmokeTest`;
* the ingestion/retrieval pipeline contract, whose deciding code lives in
  third-party libraries not present in the repository; those parts are
  modelled from the spec and marked as such in their doc comments.
-/

/-- A chat message as stored in `st.session_state.messages` in `app.py`:
a dict with a `role` string (`"user"` or `"assistant"`) and a `content` string. -/
structure Msg where
  role : String
  content : String
deriving DecidableEq

/-- Error taxonomy of the spec (§7): provider failures (remote call failed) and
configuration failures (bad/missing input).  `app.py` itself raises neither;
a raised provider error models an exception escaping `chain.invoke`. -/
inductive AppError where
  | provider (msg : String)
  | configuration (msg : String)
deriving DecidableEq

/-- Observable trace of one execution of the chat-input block of `app.py`:
the session message list at the moment `chain.invoke` would run, whether the
model was actually called, the session message list when the script run ends
(session state persists across Streamlit reruns, also when an exception
escapes), and the error, if any, that escaped the run. -/
structure TurnTrace where
  preCallMessages : List Msg
  modelCalled : Bool
  finalMessages : List Msg
  raised : Option AppError
deriving DecidableEq

/-- `app.py` line 62: `st.session_state.messages = []` — the session history
starts empty. -/
def initialMessages : List Msg := []

/-- One query turn of `app.py`.  `if prompt := st.chat_input(...)` runs the
block only for a non-empty prompt (empty string is falsy in Python).  Inside
the block the code first appends the user message to
`st.session_state.messages`, then calls `st.session_state.chain.invoke`;
on success it appends the assistant message; on an exception the run aborts
with the user message already appended (no try/except in `app.py`). -/
def runTurn (msgs : List Msg) (prompt : String) (outcome : Except String String) : TurnTrace :=
  if prompt = "" then
    { preCallMessages := msgs, modelCalled := false, finalMessages := msgs, raised := none }
  else
    let withUser := msgs ++ [{ role := "user", content := prompt }]
    match outcome with
    | .ok answer =>
        { preCallMessages := withUser
          modelCalled := true
          finalMessages := withUser ++ [{ role := "assistant", content := answer }]
          raised := none }
    | .error e =>
        { preCallMessages := withUser
          modelCalled := true
          finalMessages := withUser
          raised := some (.provider e) }

/-- Result of the startup section of `app.py`: either halted by `st.stop()`
after `st.error`, or running; the second component lists the pipeline
components constructed during the run, in construction order. -/
inductive StartupResult where
  | halted (errMsg : String)
  | running
deriving DecidableEq

/-- `app.py` lines 26-32: try `st.secrets["OPENAI_API_KEY"]`; on
`FileNotFoundError`/`KeyError` fall back to `os.getenv` after `load_dotenv()`.
`none` models an absent key. -/
def resolveApiKey (secretsKey envKey : Option String) : Option String :=
  match secretsKey with
  | some k => some k
  | none => envKey

/-- The error text shown by `app.py` when no API key is found. -/
def missingKeyMessage : String :=
  "OPENAI_API_KEY not found! Please add it to Streamlit Secrets or .env file"

/-- Startup of `app.py`: resolve the key; `if not api_key or api_key == ""`
show an error and `st.stop()` (nothing after runs); otherwise continue, and
build the embeddings client, vector store, memory and chain — but only when
`"chain" not in st.session_state` (first run of a session). -/
def startApp (secretsKey envKey : Option String) (sessionHasChain : Bool) :
    StartupResult × List String :=
  match resolveApiKey secretsKey envKey with
  | none => (.halted missingKeyMessage, [])
  | some k =>
    if k = "" then
      (.halted missingKeyMessage, [])
    else
      (.running,
        if sessionHasChain then []
        else ["OpenAIEmbeddings", "Chroma", "ConversationBufferMemory",
              "ConversationalRetrievalChain"])

/-- The two lines `test_api.py` prints before attempting the API call. -/
def smokeTestBanner : List String :=
  ["Testing OpenAI API connection...",
   "This will cost about $0.0001 (basically free!)"]

/-- `test_api.py`: print the banner, then try one chat-completions call; on
success print `"Great"`, a blank line and the response content; on any
exception print `"Error Message: "` followed by the exception text.  The
function is total: every outcome yields a normal list of printed lines. -/
def runSmokeTest (apiResult : Except String String) : List String :=
  smokeTestBanner ++
    match apiResult with
    | .ok content => ["Great", "", content]
    | .error e => ["Error Message: " ++ e]

/-- A chunk produced by the splitter: its character offset in the source
document and its text (spec §3: text, source identifier, offset; the source
identifier is constant for the single-document ingestion of `ingest.py` and
omitted here). -/
structure Chunk where
  offset : Nat
  text : List Char
deriving DecidableEq

/-- Modelled from the spec: the splitting algorithm lives in the library
class `CharacterTextSplitter` used by `ingest.py`, whose code is not part of
the repository.  Spec §4.1 prescribes pure length-based slicing with target
length `L` and overlap `O`.  `chunkStarts d L N pos` lists the chunk start
offsets from `pos` over a document of length `N`, with stride `d + 1`
(instantiated with `d + 1 = L - O`, positive because `O < L`): it emits
starts until the current chunk reaches the end of the document. -/
def chunkStarts (d L N : Nat) (pos : Nat) : List Nat :=
  if pos + L < N then pos :: chunkStarts d L N (pos + d + 1) else [pos]
termination_by N - pos
decreasing_by omega

/-- Modelled from the spec: the splitter contract of §4.1 for the library
splitter configured in `ingest.py` (`chunk_size=1000, chunk_overlap=200`),
whose code is not in the repository.  Validate `O < L` (`ConfigurationError`
otherwise, per §4.1/§7), then slice: the chunk starting at `p` holds the `L`
characters from offset `p` (clipped at the end of the document), and starts
advance by `L - O` so that consecutive chunks share `O` characters. -/
def splitDocument (L O : Nat) (text : List Char) : Except AppError (List Chunk) :=
  if O < L then
    .ok ((chunkStarts (L - O - 1) L text.length 0).map
      fun p => { offset := p, text := (text.drop p).take L })
  else
    .error (.configuration "chunk overlap must be smaller than chunk size")

/-- An embedding vector with rational coordinates (spec §3: a fixed-dimension
numeric vector; the dimension is whatever the provider returns). -/
abbrev Embedding := List ℚ

/-- Dot product of two embeddings. -/
def dotQ (a b : Embedding) : ℚ :=
  (List.zipWith (fun x y => x * y) a b).sum

/-- Squared Euclidean norm of an embedding. -/
def normSq (a : Embedding) : ℚ := dotQ a a

/-- Squared norm with zero replaced by one.  The zero vector is the only
vector of squared norm zero, and there cosine similarity degenerates; using
`1` makes the comparator treat it as having cosine `0`, matching the
real-division convention `x / 0 = 0`. -/
def posNormSq (a : Embedding) : ℚ := if normSq a = 0 then 1 else normSq a

/-- Square-root-free comparison of cosine similarities on (dot product,
squared norm) pairs: for positive `na`, `nb`, `cmpGe da na db nb` decides
`db / sqrt nb ≤ da / sqrt na` by comparing signs first and cross-multiplied
squares second. -/
def cmpGe (da na db nb : ℚ) : Bool :=
  if 0 ≤ da then
    if 0 ≤ db then decide (db * db * na ≤ da * da * nb) else true
  else
    if 0 ≤ db then false
    else decide (da * da * nb ≤ db * db * na)

/-- `simGe q a b`: the cosine similarity of `a` to the query `q` is at least
that of `b`.  The query's norm is a common positive factor of both cosines,
so it cancels and does not appear. -/
def simGe (q a b : Embedding) : Bool :=
  cmpGe (dotQ q a) (posNormSq a) (dotQ q b) (posNormSq b)

/-- An index entry: a chunk together with its stored embedding (spec §3,
§4.3: the index is a persistent collection of (Chunk, Embedding) pairs). -/
structure IndexEntry where
  chunk : Chunk
  emb : Embedding
deriving DecidableEq

/-- Ranking comparator on insertion-tagged entries: higher cosine similarity
first; on cosine ties, the earlier-inserted entry first. -/
def rankLE (q : Embedding) (a b : Nat × IndexEntry) : Bool :=
  if simGe q a.2.emb b.2.emb then
    if simGe q b.2.emb a.2.emb then decide (a.1 ≤ b.1) else true
  else false

/-- Modelled from the spec: `search(queryEmbedding, k)` of §4.3 for the
vector store behind `vectorstore.as_retriever` in `app.py`, whose search
code is not part of the repository.  Entries are tagged with their insertion
position, sorted by descending cosine similarity with ties broken by
insertion order, and the first `k` are kept. -/
def searchTagged (q : Embedding) (k : Nat) (idx : List IndexEntry) :
    List (Nat × IndexEntry) :=
  (idx.enum.mergeSort (rankLE q)).take k

/-- The entries returned by `search`: the tagged results without their tags. -/
def search (q : Embedding) (k : Nat) (idx : List IndexEntry) : List IndexEntry :=
  (searchTagged q k idx).map Prod.snd

/-- `app.py` line 125: `search_kwargs` fixes `k` to `2` for the reference
deployment's retriever. -/
def retrieverK : Nat := 2

/-- Real-valued cosine similarity of two embeddings, the quantity named by
the spec (§4.3); used only in specification statements, with the comparator
`cmpGe` as its executable counterpart. -/
noncomputable def cosSim (a b : Embedding) : ℝ :=
  (dotQ a b : ℝ) / (Real.sqrt (normSq a : ℝ) * Real.sqrt (normSq b : ℝ))

/-- The cosine similarity of `v` to the query `q`, scaled by the query's
norm (which is a positive constant across one search). -/
noncomputable def simRatio (q v : Embedding) : ℝ :=
  (dotQ q v : ℝ) / Real.sqrt (posNormSq v : ℝ)

/-- An entry as persisted in the vector store: the store-assigned identifier
plus the chunk's source, offset and text. -/
structure StoredEntry where
  entryId : Nat
  source : String
  chunkOffset : Nat
  chunkText : List Char
deriving DecidableEq

/-- Modelled from the spec: the persistence step of `ingest.py` is
`Chroma.from_documents`, whose code is not part of the repository; per
§4.3/§9 the reference behavior does not key entries by source+offset but
gives each added chunk a fresh identifier.  `addEntries n source chunks`
builds stored entries with consecutive fresh identifiers starting at `n`. -/
def addEntries (n : Nat) (source : String) (chunks : List Chunk) : List StoredEntry :=
  match chunks with
  | [] => []
  | c :: cs => ⟨n, source, c.offset, c.text⟩ :: addEntries (n + 1) source cs

/-- Modelled from the spec: one ingestion run appends the chunks of a
document to the persisted store under fresh identifiers (§9: the reference
takes no dedup action keyed on source+offset). -/
def ingestInto (store : List StoredEntry) (source : String) (chunks : List Chunk) :
    List StoredEntry :=
  store ++ addEntries store.length source chunks

/-- Number of stored entries carrying a given source and offset. -/
def entriesFor (store : List StoredEntry) (source : String) (off : Nat) : Nat :=
  store.countP (fun e => e.source == source && e.chunkOffset == off)

/-- C1 counterexample: the claim says both turns are appended only after the
successful answer, not before the model call; but in `app.py` the user turn
is appended before `chain.invoke` runs: starting from an empty history with
prompt `"hi"`, the message list at the moment of the model call is not the
original (empty) list. -/
theorem C1_counterexample :
    ¬ (runTurn [] "hi" (.ok "ans")).preCallMessages = ([] : List Msg) := by
  decide

/-- C1 (amended): on a successful turn with a non-empty prompt, the session
history grows by exactly two turns, the user turn then the assistant turn in
that order; however the user turn is already appended before the model call
(the pre-call history is the original history plus the user turn), and only
the assistant turn is appended after the successful answer. -/
theorem C1_success_growth (msgs : List Msg) (prompt answer : String) (h : prompt ≠ "") :
    (runTurn msgs prompt (.ok answer)).finalMessages
      = msgs ++ [⟨"user", prompt⟩, ⟨"assistant", answer⟩] ∧
    (runTurn msgs prompt (.ok answer)).preCallMessages = msgs ++ [⟨"user", prompt⟩] := by
  simp [runTurn, h]

/-- C1 witness: the amended statement at a concrete input. -/
theorem C1_success_growth_witness :
    (runTurn [] "hi" (.ok "ans")).finalMessages
      = [] ++ [⟨"user", "hi"⟩, ⟨"assistant", "ans"⟩] ∧
    (runTurn [] "hi" (.ok "ans")).preCallMessages = [] ++ [⟨"user", "hi"⟩] :=
  C1_success_growth [] "hi" "ans" (by decide)

/-- C2 counterexample: the claim says that after a `ProviderError` in the
model call the history length equals its length before the turn; but
`app.py` appends the user message before `chain.invoke`, and has no
try/except, so the failed turn leaves the user message in the session state:
from an empty history the length after the failure is 1, not 0. -/
theorem C2_counterexample :
    ¬ (runTurn [] "hi" (.error "boom")).finalMessages.length = ([] : List Msg).length := by
  decide

/-- C2 (amended): when the model call fails, the session history grows by
exactly one turn — the user turn, appended before the call — and no
assistant turn is recorded; the provider error escapes the run. -/
theorem C2_failure_keeps_user_turn (msgs : List Msg) (prompt e : String) (h : prompt ≠ "") :
    (runTurn msgs prompt (.error e)).finalMessages = msgs ++ [⟨"user", prompt⟩] ∧
    (runTurn msgs prompt (.error e)).raised = some (.provider e) := by
  simp [runTurn, h]

/-- C2 witness: the amended statement at a concrete input. -/
theorem C2_failure_keeps_user_turn_witness :
    (runTurn [] "hi" (.error "boom")).finalMessages = [] ++ [⟨"user", "hi"⟩] ∧
    (runTurn [] "hi" (.error "boom")).raised = some (.provider "boom") :=
  C2_failure_keeps_user_turn [] "hi" "boom" (by decide)

/-- C3 counterexample: the claim says an empty-string question fails with a
`ConfigurationError`; but `app.py` guards the whole block with
`if prompt := st.chat_input(...)`, so an empty prompt skips the turn
entirely and no error of any kind is raised. -/
theorem C3_counterexample :
    ¬ ∃ m, (runTurn [] "" (.ok "ans")).raised = some (.configuration m) := by
  rintro ⟨m, hm⟩
  simp [runTurn] at hm

/-- C3 (amended): an empty-string question is a no-op: the model is not
called (hence no embedding, retrieval or model network call), the session
history is unchanged, and no error — in particular no `ConfigurationError` —
is raised. -/
theorem C3_empty_question_noop (msgs : List Msg) (outcome : Except String String) :
    (runTurn msgs "" outcome).modelCalled = false ∧
    (runTurn msgs "" outcome).finalMessages = msgs ∧
    (runTurn msgs "" outcome).raised = none := by
  simp [runTurn]

/-- C8: the session history starts empty and each turn only appends: the
final history extends the starting history by a suffix, every appended entry
has role `"user"` or `"assistant"`, and a completed turn (non-empty prompt,
successful answer) appends exactly one user entry followed by one assistant
entry; no existing entry is modified or removed. -/
theorem C8_append_only (msgs : List Msg) (prompt : String) (outcome : Except String String) :
    initialMessages = [] ∧
    ∃ suffix, (runTurn msgs prompt outcome).finalMessages = msgs ++ suffix ∧
      (∀ m ∈ suffix, m.role = "user" ∨ m.role = "assistant") ∧
      (prompt ≠ "" → ∀ answer, outcome = .ok answer →
        suffix = [⟨"user", prompt⟩, ⟨"assistant", answer⟩]) := by
  refine ⟨rfl, ?_⟩
  by_cases h : prompt = ""
  · exact ⟨[], by simp [runTurn, h], by simp, fun hne => absurd h hne⟩
  · cases outcome with
    | ok answer =>
        refine ⟨[⟨"user", prompt⟩, ⟨"assistant", answer⟩], by simp [runTurn, h], ?_, ?_⟩
        · intro m hm
          simp only [List.mem_cons, List.not_mem_nil, or_false] at hm
          rcases hm with hm | hm
          · exact Or.inl (by simp [hm])
          · exact Or.inr (by simp [hm])
        · intro _ a ha
          cases ha
          rfl
    | error e =>
        refine ⟨[⟨"user", prompt⟩], by simp [runTurn, h], ?_, ?_⟩
        · intro m hm
          simp only [List.mem_singleton] at hm
          exact Or.inl (by simp [hm])
        · intro _ a ha
          cases ha

/-- C8 witness: the invariant at a concrete input. -/
theorem C8_append_only_witness :
    initialMessages = [] ∧
    ∃ suffix, (runTurn [] "hi" (.ok "yo")).finalMessages = [] ++ suffix ∧
      (∀ m ∈ suffix, m.role = "user" ∨ m.role = "assistant") ∧
      ("hi" ≠ "" → ∀ answer, (Except.ok "yo" : Except String String) = .ok answer →
        suffix = [⟨"user", "hi"⟩, ⟨"assistant", answer⟩]) :=
  C8_append_only [] "hi" (.ok "yo")

/-- C9: if the API key resolves to absent or to the empty string, startup
shows the missing-key error and halts, and no pipeline component (embeddings
client, vector store, memory, chain) is constructed in that run, whether or
not a chain already exists in the session. -/
theorem C9_missing_key_halts (secretsKey envKey : Option String) (sessionHasChain : Bool)
    (h : resolveApiKey secretsKey envKey = none ∨ resolveApiKey secretsKey envKey = some "") :
    startApp secretsKey envKey sessionHasChain = (.halted missingKeyMessage, []) := by
  rcases h with h | h <;> simp [startApp, h]

/-- C9 witness: concrete run with the key absent in both sources. -/
theorem C9_missing_key_halts_witness :
    startApp none none false = (.halted missingKeyMessage, []) :=
  C9_missing_key_halts none none false (Or.inl rfl)

/-- C10: the smoke test terminates normally for every outcome of the API
call, always printing the banner followed by a non-empty tail; when the call
fails with exception text `e`, the tail is exactly the caught-error line, so
no provider failure propagates. -/
theorem C10_smoke_test_catches_all (r : Except String String) :
    (∃ out, runSmokeTest r = smokeTestBanner ++ out ∧ out ≠ []) ∧
    (∀ e, r = .error e → runSmokeTest r = smokeTestBanner ++ ["Error Message: " ++ e]) := by
  cases r with
  | ok content =>
      exact ⟨⟨["Great", "", content], rfl, by simp⟩, fun e he => by cases he⟩
  | error e =>
      exact ⟨⟨["Error Message: " ++ e], rfl, by simp⟩, fun e' he => by cases he; rfl⟩

/-- C10 witness: the statement at a concrete failing outcome. -/
theorem C10_smoke_test_catches_all_witness :
    (∃ out, runSmokeTest (.error "auth") = smokeTestBanner ++ out ∧ out ≠ []) ∧
    (∀ e, (Except.error "auth" : Except String String) = .error e →
      runSmokeTest (.error "auth") = smokeTestBanner ++ ["Error Message: " ++ e]) :=
  C10_smoke_test_catches_all (.error "auth")

/-- Unfolding equation for `chunkStarts`. -/
theorem chunkStarts_eq (d L N pos : Nat) :
    chunkStarts d L N pos =
      if pos + L < N then pos :: chunkStarts d L N (pos + d + 1) else [pos] := by
  rw [chunkStarts]

/-- The first start offset emitted is the starting position itself. -/
theorem chunkStarts_head (d L N pos : Nat) :
    (chunkStarts d L N pos).head? = some pos := by
  rw [chunkStarts_eq]
  split <;> rfl

/-- Every document position at or after `pos` lies inside some chunk:
there is a start `p` with `p ≤ i < p + L`. -/
theorem chunkStarts_covers (d L N : Nat) (hdL : d + 1 ≤ L) :
    ∀ k pos, N - pos ≤ k → ∀ i, pos ≤ i → i < N →
      ∃ p ∈ chunkStarts d L N pos, p ≤ i ∧ i < p + L := by
  intro k
  induction k with
  | zero =>
      intro pos hk i hpi hiN
      omega
  | succ k ih =>
      intro pos hk i hpi hiN
      rw [chunkStarts_eq]
      split
      case isTrue h =>
        by_cases hi : i < pos + L
        · exact ⟨pos, List.mem_cons_self _ _, hpi, hi⟩
        · obtain ⟨p, hp, h1, h2⟩ :=
            ih (pos + d + 1) (by omega) i (by omega) hiN
          exact ⟨p, List.mem_cons_of_mem _ hp, h1, h2⟩
      case isFalse h =>
        exact ⟨pos, List.mem_cons_self _ _, hpi, by omega⟩

/-- Consecutive start offsets differ by exactly the stride `d + 1`, and every
start that has a successor begins a chunk that does not reach the end of the
document (hence that chunk has full length `L`). -/
theorem chunkStarts_chain (d L N : Nat) :
    ∀ k pos, N - pos ≤ k →
      List.Chain' (fun a b => b = a + (d + 1) ∧ a + L < N) (chunkStarts d L N pos) := by
  intro k
  induction k with
  | zero =>
      intro pos hk
      rw [chunkStarts_eq]
      split
      case isTrue h => omega
      case isFalse h => simp
  | succ k ih =>
      intro pos hk
      rw [chunkStarts_eq]
      split
      case isTrue h =>
        rw [List.chain'_cons']
        refine ⟨?_, ih (pos + d + 1) (by omega)⟩
        intro b hb
        rw [chunkStarts_head] at hb
        simp only [Option.mem_some_iff] at hb
        exact ⟨by omega, h⟩
      case isFalse h => simp

/-- The number of chunks produced from `pos` is
`(N - pos - L + d) / (d + 1) + 1`. -/
theorem chunkStarts_length (d L N : Nat) :
    ∀ k pos, N - pos ≤ k →
      (chunkStarts d L N pos).length = (N - pos - L + d) / (d + 1) + 1 := by
  intro k
  induction k with
  | zero =>
      intro pos hk
      rw [chunkStarts_eq]
      split
      case isTrue h => omega
      case isFalse h =>
        have h0 : N - pos - L = 0 := by omega
        simp [h0, Nat.div_eq_of_lt (by omega : d < d + 1)]
  | succ k ih =>
      intro pos hk
      rw [chunkStarts_eq]
      split
      case isTrue h =>
        simp only [List.length_cons, ih (pos + d + 1) (by omega)]
        have hx : 1 ≤ N - pos - L := by omega
        by_cases hbig : d + 1 ≤ N - pos - L
        · have he : N - pos - L + d = (N - (pos + d + 1) - L + d) + (d + 1) := by omega
          rw [he, Nat.add_div_right _ (by omega : 0 < d + 1)]
        · have h1 : N - (pos + d + 1) - L = 0 := by omega
          have h2 : (N - pos - L + d) / (d + 1) = 1 :=
            Nat.div_eq_of_lt_le (by omega) (by omega)
          rw [h1, h2, Nat.zero_add, Nat.div_eq_of_lt (by omega : d < d + 1)]
      case isFalse h =>
        have h0 : N - pos - L = 0 := by omega
        simp [h0, Nat.div_eq_of_lt (by omega : d < d + 1)]

/-- C4: for a document of length N, target length L and overlap O with
0 ≤ O < L ≤ N, the splitter succeeds and its chunks are the document
substrings at their offsets, cover every character position, consecutive
chunks overlap by exactly O characters (end of one chunk = start of the
next plus O), and the chunk count is ceil((N − O) / (L − O)). -/
theorem C4_splitter_contract (L O : Nat) (text : List Char) (hO : O < L)
    (hL : L ≤ text.length) :
    ∃ cs, splitDocument L O text = .ok cs ∧
      (∀ c ∈ cs, c.text = (text.drop c.offset).take L) ∧
      (∀ i, i < text.length → ∃ c ∈ cs, c.offset ≤ i ∧ i < c.offset + c.text.length) ∧
      List.Chain' (fun c c' => c.offset + c.text.length = c'.offset + O) cs ∧
      cs.length = (text.length - O + (L - O) - 1) / (L - O) := by
  have hd : (L - O - 1) + 1 = L - O := by omega
  refine ⟨_, by rw [splitDocument, if_pos hO], ?_, ?_, ?_, ?_⟩
  · intro c hc
    obtain ⟨p, _, rfl⟩ := List.mem_map.mp hc
    rfl
  · intro i hi
    obtain ⟨p, hp, h1, h2⟩ :=
      chunkStarts_covers (L - O - 1) L text.length (by omega)
        (text.length - 0) 0 le_rfl i (Nat.zero_le i) hi
    refine ⟨⟨p, (text.drop p).take L⟩, List.mem_map_of_mem _ hp, h1, ?_⟩
    simp only [List.length_take, List.length_drop]
    omega
  · have hch := chunkStarts_chain (L - O - 1) L text.length
      (text.length - 0) 0 le_rfl
    rw [List.chain'_map]
    refine hch.imp ?_
    intro a b hab
    obtain ⟨hb, ha⟩ := hab
    simp only [List.length_take, List.length_drop]
    omega
  · rw [List.length_map,
      chunkStarts_length (L - O - 1) L text.length (text.length - 0) 0 le_rfl]
    have he : text.length - O + (L - O) - 1 = (text.length - 0 - L + (L - O - 1)) + (L - O) := by
      omega
    rw [he, hd, Nat.add_div_right _ (by omega : 0 < L - O)]

/-- C4 witness: the contract at L = 3, O = 1 on a five-character document. -/
theorem C4_splitter_contract_witness :
    ∃ cs, splitDocument 3 1 ['a', 'b', 'c', 'd', 'e'] = .ok cs ∧
      (∀ c ∈ cs, c.text = ((['a', 'b', 'c', 'd', 'e'] : List Char).drop c.offset).take 3) ∧
      (∀ i, i < (['a', 'b', 'c', 'd', 'e'] : List Char).length →
        ∃ c ∈ cs, c.offset ≤ i ∧ i < c.offset + c.text.length) ∧
      List.Chain' (fun c c' => c.offset + c.text.length = c'.offset + 1) cs ∧
      cs.length = ((['a', 'b', 'c', 'd', 'e'] : List Char).length - 1 + (3 - 1) - 1) / (3 - 1) :=
  C4_splitter_contract 3 1 ['a', 'b', 'c', 'd', 'e'] (by decide) (by decide)

/-- C7: when the overlap is not strictly smaller than the target chunk
length, the splitter fails with a `ConfigurationError`, returned to the
caller through the `Except` result rather than swallowed. -/
theorem C7_overlap_validated (L O : Nat) (text : List Char) (h : ¬ O < L) :
    splitDocument L O text
      = .error (.configuration "chunk overlap must be smaller than chunk size") := by
  rw [splitDocument, if_neg h]

/-- C7 witness: overlap equal to the chunk length is rejected. -/
theorem C7_overlap_validated_witness :
    splitDocument 2 2 ['a', 'b', 'c']
      = .error (.configuration "chunk overlap must be smaller than chunk size") :=
  C7_overlap_validated 2 2 ['a', 'b', 'c'] (by decide)

/-- Counting matching entries among freshly added ones ignores the assigned
identifiers: it equals the count of matching chunks. -/
theorem countP_addEntries (source : String) (off : Nat) :
    ∀ (chunks : List Chunk) (n : Nat),
      (addEntries n source chunks).countP
          (fun e => e.source == source && e.chunkOffset == off)
        = chunks.countP (fun c => c.offset == off) := by
  intro chunks
  induction chunks with
  | nil => intro n; rfl
  | cons c cs ih =>
      intro n
      simp [addEntries, List.countP_cons, ih (n + 1)]

/-- One ingestion adds, for every (source, offset) key, as many entries as
the ingested chunk list has chunks at that offset. -/
theorem entriesFor_ingestInto (store : List StoredEntry) (source : String)
    (chunks : List Chunk) (off : Nat) :
    entriesFor (ingestInto store source chunks) source off
      = entriesFor store source off + chunks.countP (fun c => c.offset == off) := by
  simp [entriesFor, ingestInto, List.countP_append, countP_addEntries]

/-- C6 counterexample: ingesting the same one-chunk document twice yields two
stored entries for the chunk's (source, offset) key, not one — the store
assigns fresh identifiers instead of keying on source+offset. -/
theorem C6_counterexample :
    ¬ entriesFor
        (ingestInto (ingestInto [] "data/sample.txt" [⟨0, ['a']⟩])
          "data/sample.txt" [⟨0, ['a']⟩])
        "data/sample.txt" 0 = 1 := by
  decide

/-- C6 (amended): re-ingesting the same document does not dedupe: starting
from an empty store, ingesting a chunk list twice leaves, for every offset,
twice as many stored entries as the chunk list has chunks at that offset —
idempotence keyed on source+offset is an unmet target. -/
theorem C6_reingest_duplicates (source : String) (chunks : List Chunk) (off : Nat) :
    entriesFor (ingestInto (ingestInto [] source chunks) source chunks) source off
      = 2 * chunks.countP (fun c => c.offset == off) := by
  simp [entriesFor_ingestInto]
  have h0 : entriesFor [] source off = 0 := rfl
  omega

/-- A squared norm is a sum of squares, hence nonnegative. -/
theorem normSq_nonneg (a : Embedding) : 0 ≤ normSq a := by
  unfold normSq dotQ
  rw [List.zipWith_same]
  apply List.sum_nonneg
  intro x hx
  obtain ⟨y, _, rfl⟩ := List.mem_map.mp hx
  exact mul_self_nonneg y

/-- The adjusted squared norm is positive. -/
theorem posNormSq_pos (a : Embedding) : 0 < posNormSq a := by
  unfold posNormSq
  split
  · exact one_pos
  · exact lt_of_le_of_ne (normSq_nonneg a) (Ne.symm (by assumption))

/-- For a vector of positive squared norm the adjustment is the identity. -/
theorem posNormSq_eq (a : Embedding) (h : 0 < normSq a) : posNormSq a = normSq a :=
  if_neg h.ne'

/-- Comparison of nonpositive reals through their squares. -/
theorem nonpos_le_iff_sq (x y : ℝ) (hx : x ≤ 0) (hy : y ≤ 0) :
    x ≤ y ↔ y * y ≤ x * x := by
  constructor
  · intro h
    calc y * y = (-y) * (-y) := by ring
      _ ≤ (-x) * (-x) :=
        mul_self_le_mul_self (neg_nonneg.mpr hy) (by linarith)
      _ = x * x := by ring
  · intro h
    have h2 : -y ≤ -x := by
      refine (mul_self_le_mul_self_iff (neg_nonneg.mpr hy) (neg_nonneg.mpr hx)).mpr ?_
      calc (-y) * (-y) = y * y := by ring
        _ ≤ x * x := h
        _ = (-x) * (-x) := by ring
    linarith

/-- The square-root-free comparator agrees with the comparison of the real
ratios `d / sqrt n` whenever both squared norms are positive. -/
theorem cmpGe_iff (da na db nb : ℚ) (hna : 0 < na) (hnb : 0 < nb) :
    cmpGe da na db nb = true ↔
      (db : ℝ) / Real.sqrt (nb : ℝ) ≤ (da : ℝ) / Real.sqrt (na : ℝ) := by
  have hna' : (0 : ℝ) < (na : ℝ) := by exact_mod_cast hna
  have hnb' : (0 : ℝ) < (nb : ℝ) := by exact_mod_cast hnb
  have sna : (0 : ℝ) < Real.sqrt (na : ℝ) := Real.sqrt_pos.mpr hna'
  have snb : (0 : ℝ) < Real.sqrt (nb : ℝ) := Real.sqrt_pos.mpr hnb'
  have ea : Real.sqrt (na : ℝ) * Real.sqrt (na : ℝ) = (na : ℝ) :=
    Real.mul_self_sqrt hna'.le
  have eb : Real.sqrt (nb : ℝ) * Real.sqrt (nb : ℝ) = (nb : ℝ) :=
    Real.mul_self_sqrt hnb'.le
  rw [div_le_div_iff₀ snb sna]
  unfold cmpGe
  by_cases hda : 0 ≤ da
  · by_cases hdb : 0 ≤ db
    · have hda' : (0 : ℝ) ≤ (da : ℝ) := by exact_mod_cast hda
      have hdb' : (0 : ℝ) ≤ (db : ℝ) := by exact_mod_cast hdb
      have h1 : (0 : ℝ) ≤ (db : ℝ) * Real.sqrt (na : ℝ) := mul_nonneg hdb' sna.le
      have h2 : (0 : ℝ) ≤ (da : ℝ) * Real.sqrt (nb : ℝ) := mul_nonneg hda' snb.le
      simp only [if_pos hda, if_pos hdb, decide_eq_true_eq]
      rw [mul_self_le_mul_self_iff h1 h2]
      rw [show (db : ℝ) * Real.sqrt (na : ℝ) * ((db : ℝ) * Real.sqrt (na : ℝ))
            = (db : ℝ) * (db : ℝ) * (Real.sqrt (na : ℝ) * Real.sqrt (na : ℝ)) from by ring]
      rw [show (da : ℝ) * Real.sqrt (nb : ℝ) * ((da : ℝ) * Real.sqrt (nb : ℝ))
            = (da : ℝ) * (da : ℝ) * (Real.sqrt (nb : ℝ) * Real.sqrt (nb : ℝ)) from by ring]
      rw [ea, eb]
      exact_mod_cast Iff.rfl
    · have hdb2 : db < 0 := lt_of_not_ge hdb
      have hdb' : (db : ℝ) < 0 := by exact_mod_cast hdb2
      have hda' : (0 : ℝ) ≤ (da : ℝ) := by exact_mod_cast hda
      simp only [if_pos hda, if_neg hdb]
      constructor
      · intro _
        calc (db : ℝ) * Real.sqrt (na : ℝ) ≤ 0 :=
              mul_nonpos_of_nonpos_of_nonneg hdb'.le sna.le
          _ ≤ (da : ℝ) * Real.sqrt (nb : ℝ) := mul_nonneg hda' snb.le
      · intro _
        trivial
  · by_cases hdb : 0 ≤ db
    · have hda2 : da < 0 := lt_of_not_ge hda
      have hda' : (da : ℝ) < 0 := by exact_mod_cast hda2
      have hdb' : (0 : ℝ) ≤ (db : ℝ) := by exact_mod_cast hdb
      simp only [if_neg hda, if_pos hdb]
      constructor
      · intro h
        cases h
      · intro h
        exfalso
        have hlt : (da : ℝ) * Real.sqrt (nb : ℝ) < 0 := mul_neg_of_neg_of_pos hda' snb
        have hge : (0 : ℝ) ≤ (db : ℝ) * Real.sqrt (na : ℝ) := mul_nonneg hdb' sna.le
        linarith
    · have hda2 : da < 0 := lt_of_not_ge hda
      have hdb2 : db < 0 := lt_of_not_ge hdb
      have hda' : (da : ℝ) < 0 := by exact_mod_cast hda2
      have hdb' : (db : ℝ) < 0 := by exact_mod_cast hdb2
      have h1 : (db : ℝ) * Real.sqrt (na : ℝ) ≤ 0 :=
        mul_nonpos_of_nonpos_of_nonneg hdb'.le sna.le
      have h2 : (da : ℝ) * Real.sqrt (nb : ℝ) ≤ 0 :=
        mul_nonpos_of_nonpos_of_nonneg hda'.le snb.le
      simp only [if_neg hda, if_neg hdb, decide_eq_true_eq]
      rw [nonpos_le_iff_sq _ _ h1 h2]
      rw [show (da : ℝ) * Real.sqrt (nb : ℝ) * ((da : ℝ) * Real.sqrt (nb : ℝ))
            = (da : ℝ) * (da : ℝ) * (Real.sqrt (nb : ℝ) * Real.sqrt (nb : ℝ)) from by ring]
      rw [show (db : ℝ) * Real.sqrt (na : ℝ) * ((db : ℝ) * Real.sqrt (na : ℝ))
            = (db : ℝ) * (db : ℝ) * (Real.sqrt (na : ℝ) * Real.sqrt (na : ℝ)) from by ring]
      rw [ea, eb]
      exact_mod_cast Iff.rfl

/-- The comparator `simGe` is the comparison of similarity ratios. -/
theorem simGe_iff (q a b : Embedding) :
    simGe q a b = true ↔ simRatio q b ≤ simRatio q a := by
  unfold simGe simRatio
  exact cmpGe_iff _ _ _ _ (posNormSq_pos a) (posNormSq_pos b)

/-- Totality of the similarity comparator. -/
theorem simGe_total (q a b : Embedding) :
    simGe q a b = true ∨ simGe q b a = true := by
  rcases le_total (simRatio q b) (simRatio q a) with h | h
  · exact Or.inl ((simGe_iff q a b).mpr h)
  · exact Or.inr ((simGe_iff q b a).mpr h)

/-- Transitivity of the similarity comparator. -/
theorem simGe_trans (q a b c : Embedding) (h1 : simGe q a b = true)
    (h2 : simGe q b c = true) : simGe q a c = true :=
  (simGe_iff q a c).mpr (le_trans ((simGe_iff q b c).mp h2) ((simGe_iff q a b).mp h1))

/-- Unfolded characterisation of the ranking comparator. -/
theorem rankLE_iff (q : Embedding) (a b : Nat × IndexEntry) :
    rankLE q a b = true ↔
      simGe q a.2.emb b.2.emb = true ∧ (simGe q b.2.emb a.2.emb = true → a.1 ≤ b.1) := by
  unfold rankLE
  by_cases h1 : simGe q a.2.emb b.2.emb = true
  · by_cases h2 : simGe q b.2.emb a.2.emb = true
    · simp [h1, h2]
    · simp [h1, h2]
  · simp [h1]

/-- The ranking comparator is total. -/
theorem rankLE_total (q : Embedding) (a b : Nat × IndexEntry) :
    (rankLE q a b || rankLE q b a) = true := by
  rw [Bool.or_eq_true, rankLE_iff, rankLE_iff]
  by_cases hab : simGe q a.2.emb b.2.emb = true
  · by_cases hba : simGe q b.2.emb a.2.emb = true
    · rcases Nat.le_total a.1 b.1 with h | h
      · exact Or.inl ⟨hab, fun _ => h⟩
      · exact Or.inr ⟨hba, fun _ => h⟩
    · exact Or.inl ⟨hab, fun h => absurd h hba⟩
  · rcases simGe_total q a.2.emb b.2.emb with h | hba
    · exact absurd h hab
    · exact Or.inr ⟨hba, fun h => absurd h hab⟩

/-- The ranking comparator is transitive. -/
theorem rankLE_trans (q : Embedding) (a b c : Nat × IndexEntry)
    (h1 : rankLE q a b = true) (h2 : rankLE q b c = true) : rankLE q a c = true := by
  rw [rankLE_iff] at h1 h2 ⊢
  obtain ⟨sab, tab⟩ := h1
  obtain ⟨sbc, tbc⟩ := h2
  refine ⟨simGe_trans q _ _ _ sab sbc, ?_⟩
  intro sca
  have scb : simGe q c.2.emb b.2.emb = true := simGe_trans q _ _ _ sca sab
  have sba : simGe q b.2.emb a.2.emb = true := simGe_trans q _ _ _ sbc sca
  exact le_trans (tab sba) (tbc scb)

/-- On vectors of positive squared norm, the similarity ratio is the cosine
similarity scaled by the query's (positive, fixed) norm. -/
theorem cosSim_eq_simRatio_div (q v : Embedding) (hv : 0 < normSq v) :
    cosSim q v = simRatio q v / Real.sqrt (normSq q : ℝ) := by
  unfold cosSim simRatio
  rw [posNormSq_eq v hv]
  ring

/-- On vectors of positive squared norm (and a query of positive squared
norm), the comparator decides cosine-similarity comparison. -/
theorem simGe_iff_cosSim (q a b : Embedding) (hq : 0 < normSq q)
    (ha : 0 < normSq a) (hb : 0 < normSq b) :
    simGe q a b = true ↔ cosSim q b ≤ cosSim q a := by
  rw [simGe_iff]
  have hq' : (0 : ℝ) < Real.sqrt (normSq q : ℝ) :=
    Real.sqrt_pos.mpr (by exact_mod_cast hq)
  rw [cosSim_eq_simRatio_div q a ha, cosSim_eq_simRatio_div q b hb]
  exact (div_le_div_iff_of_pos_right hq').symm

/-- A ranking step between entries with distinct insertion positions is
strict cosine precedence: either strictly higher cosine similarity, or equal
similarity and strictly earlier insertion. -/
theorem rankLE_strict (q : Embedding) (a b : Nat × IndexEntry)
    (hq : 0 < normSq q) (ha : 0 < normSq a.2.emb) (hb : 0 < normSq b.2.emb)
    (hab : rankLE q a b = true) (hne : a.1 ≠ b.1) :
    cosSim q b.2.emb < cosSim q a.2.emb ∨
      (cosSim q a.2.emb = cosSim q b.2.emb ∧ a.1 < b.1) := by
  rw [rankLE_iff] at hab
  obtain ⟨sab, tie⟩ := hab
  have hiffba := simGe_iff_cosSim q b.2.emb a.2.emb hq hb ha
  have hab' := (simGe_iff_cosSim q a.2.emb b.2.emb hq ha hb).mp sab
  by_cases hsba : simGe q b.2.emb a.2.emb = true
  · have h1 := hiffba.mp hsba
    exact Or.inr ⟨le_antisymm h1 hab', lt_of_le_of_ne (tie hsba) hne⟩
  · have hnle : ¬ cosSim q a.2.emb ≤ cosSim q b.2.emb := fun hc => hsba (hiffba.mpr hc)
    exact Or.inl (not_le.mp hnle)

/-- C5: on a non-empty index whose embeddings are all nonzero, and a nonzero
query embedding, `search` with k ≥ 1 returns min(k, n) entries that are
exactly the k most cosine-similar entries: the returned (insertion-tagged)
entries are ordered by strictly descending cosine similarity with ties
broken by insertion order, and every returned entry strictly precedes (in
that order) every index entry not returned; the reference deployment fixes
k = 2. -/
theorem C5_search_topk (q : Embedding) (k : Nat) (idx : List IndexEntry)
    (_hk : 1 ≤ k) (_hne : idx ≠ [])
    (hq : 0 < normSq q) (hall : ∀ e ∈ idx, 0 < normSq e.emb) :
    retrieverK = 2 ∧
    (searchTagged q k idx).length = min k idx.length ∧
    search q k idx = (searchTagged q k idx).map Prod.snd ∧
    (searchTagged q k idx).Pairwise (fun a b =>
      cosSim q b.2.emb < cosSim q a.2.emb ∨
        (cosSim q a.2.emb = cosSim q b.2.emb ∧ a.1 < b.1)) ∧
    (∀ a ∈ searchTagged q k idx, ∀ b ∈ idx.enum, b ∉ searchTagged q k idx →
      cosSim q b.2.emb < cosSim q a.2.emb ∨
        (cosSim q a.2.emb = cosSim q b.2.emb ∧ a.1 < b.1)) := by
  have hperm : (idx.enum.mergeSort (rankLE q)).Perm idx.enum :=
    List.mergeSort_perm idx.enum (rankLE q)
  have hsortedPW : (idx.enum.mergeSort (rankLE q)).Pairwise
      (fun a b => rankLE q a b = true) :=
    List.sorted_mergeSort (fun a b c => rankLE_trans q a b c)
      (fun a b => rankLE_total q a b) idx.enum
  have hnodup : ((idx.enum.mergeSort (rankLE q)).map Prod.fst).Nodup := by
    have h1 : (idx.enum.map Prod.fst).Nodup := by
      rw [List.enum_map_fst]
      exact List.nodup_range _
    exact ((hperm.map Prod.fst).nodup_iff).mpr h1
  have hpwne : (idx.enum.mergeSort (rankLE q)).Pairwise (fun a b => a.1 ≠ b.1) :=
    List.pairwise_map.mp hnodup
  have hmem : ∀ x ∈ idx.enum.mergeSort (rankLE q), 0 < normSq x.2.emb := by
    intro x hx
    exact hall x.2 (List.snd_mem_of_mem_enum (hperm.mem_iff.mp hx))
  have hstrict : (idx.enum.mergeSort (rankLE q)).Pairwise (fun a b =>
      cosSim q b.2.emb < cosSim q a.2.emb ∨
        (cosSim q a.2.emb = cosSim q b.2.emb ∧ a.1 < b.1)) := by
    refine List.Pairwise.imp_of_mem ?_ (hsortedPW.and hpwne)
    intro a b ha hb hr
    exact rankLE_strict q a b hq (hmem a ha) (hmem b hb) hr.1 hr.2
  have hst : searchTagged q k idx = (idx.enum.mergeSort (rankLE q)).take k := rfl
  refine ⟨rfl, ?_, rfl, ?_, ?_⟩
  · rw [hst, List.length_take, List.length_mergeSort, List.enum_length]
  · rw [hst]
    exact List.Pairwise.sublist (List.take_sublist k _) hstrict
  · intro a ha b hb hnot
    have hb' : b ∈ idx.enum.mergeSort (rankLE q) := hperm.mem_iff.mpr hb
    have hb2 : b ∈ (idx.enum.mergeSort (rankLE q)).take k
        ++ (idx.enum.mergeSort (rankLE q)).drop k := by
      rw [List.take_append_drop]
      exact hb'
    rcases List.mem_append.mp hb2 with hbt | hbd
    · exact absurd (hst ▸ hbt) hnot
    · have hsplit := hstrict
      rw [← List.take_append_drop k (idx.enum.mergeSort (rankLE q))] at hsplit
      exact (List.pairwise_append.mp hsplit).2.2 a (hst ▸ ha) b hbd

/-- C5 witness: the top-k statement on a one-entry index with k = 1 and a
matching one-dimensional query. -/
theorem C5_search_topk_witness :
    retrieverK = 2 ∧
    (searchTagged [1] 1 ([⟨⟨0, ['a']⟩, [1]⟩] : List IndexEntry)).length
      = min 1 ([⟨⟨0, ['a']⟩, [1]⟩] : List IndexEntry).length ∧
    search [1] 1 ([⟨⟨0, ['a']⟩, [1]⟩] : List IndexEntry)
      = (searchTagged [1] 1 ([⟨⟨0, ['a']⟩, [1]⟩] : List IndexEntry)).map Prod.snd ∧
    (searchTagged [1] 1 ([⟨⟨0, ['a']⟩, [1]⟩] : List IndexEntry)).Pairwise (fun a b =>
      cosSim [1] b.2.emb < cosSim [1] a.2.emb ∨
        (cosSim [1] a.2.emb = cosSim [1] b.2.emb ∧ a.1 < b.1)) ∧
    (∀ a ∈ searchTagged [1] 1 ([⟨⟨0, ['a']⟩, [1]⟩] : List IndexEntry),
      ∀ b ∈ ([⟨⟨0, ['a']⟩, [1]⟩] : List IndexEntry).enum,
        b ∉ searchTagged [1] 1 ([⟨⟨0, ['a']⟩, [1]⟩] : List IndexEntry) →
      cosSim [1] b.2.emb < cosSim [1] a.2.emb ∨
        (cosSim [1] a.2.emb = cosSim [1] b.2.emb ∧ a.1 < b.1)) :=
  C5_search_topk [1] 1 [⟨⟨0, ['a']⟩, [1]⟩] (by decide) (by decide)
    (by norm_num [normSq, dotQ])
    (by
      intro e he
      simp only [List.mem_singleton] at he
      subst he
      norm_num [normSq, dotQ])
